import Mathlib

/-!
# Stashboard inventory core: shallow embedding

A shallow embedding of the inventory ledger and allocation engine of
`src/App.py` (a stock-management and billing application backed by SQLite),
together with proofs about the embedded operations.

Modelling conventions:
* a row of the `products` table is a `Batch`; the table is a `List Batch`
  (in rowid order, ids assigned ascending at creation);
* SQLite integers are `Int`; monetary values (Python floats used only in
  `+ * /` arithmetic) are modelled as `ℚ`;
* purchase dates (ISO `YYYY-MM-DD` strings, compared lexicographically by
  `ORDER BY`, which coincides with chronological order) are modelled as `Nat`
  order-isomorphically;
* a SQL query with `ORDER BY purchase_date ASC` guarantees only that the
  result is *some* date-sorted permutation of the selected rows; the
  predicate `queryOK` captures exactly that contract, and allocation results
  are proved for every list satisfying it;
* each operation that the source runs in its own committed transaction is a
  pure state transformer; an operation that rolls back on failure returns the
  unchanged state in its failure branch.
-/

namespace StockApp

/-- `to_sentence_case` from `App.py`: first character upper-cased, the rest
lower-cased (ASCII casing; the claims never depend on non-ASCII casing). -/
def to_sentence_case (s : String) : String :=
  match s.data with
  | [] => s
  | c :: rest => String.mk (c.toUpper :: rest.map Char.toLower)

/-- `format_name` from `App.py`: split into words, sentence-case each word,
join with single spaces (empty fragments dropped, as Python `str.split`). -/
def format_name (s : String) : String :=
  " ".intercalate (((s.splitOn " ").filter (fun w => w ≠ "")).map to_sentence_case)

/-- One row of the `products` table: a purchase batch.  `original` is the
`original_quantity` column, `qty` the `quantity` column (the remaining
quantity), `pdate` the `purchase_date`.  Columns not used by any core
operation (brand, company, tax-rate columns, supplier invoice) are omitted. -/
structure Batch where
  id : Nat
  pname : String
  pdate : Nat
  original : Int
  qty : Int
  price : ℚ
deriving DecidableEq

/-- `SUM(quantity)` over a list of rows. -/
def totalAvailable (bs : List Batch) : Int :=
  (bs.map (fun b => b.qty)).sum

/-- The rows selected by
`SELECT ... FROM products WHERE product_name = ? AND quantity > 0`. -/
def stockQuery (db : List Batch) (name : String) : List Batch :=
  db.filter (fun b => decide (b.pname = name ∧ 0 < b.qty))

/-- Date comparison used by `ORDER BY purchase_date ASC`. -/
def dateLe (a b : Batch) : Prop := a.pdate ≤ b.pdate

instance : DecidableRel dateLe := fun a b => inferInstanceAs (Decidable (a.pdate ≤ b.pdate))

/-- The contract of the batch query issued by `update_stock`
(`WHERE product_name = ? AND quantity > 0 ORDER BY purchase_date ASC`):
the result is a permutation of the selected rows that is sorted ascending by
purchase date.  SQL fixes nothing more: no tie-break key is given. -/
def queryOK (db : List Batch) (name : String) (bs : List Batch) : Prop :=
  List.Perm bs (stockQuery db name) ∧ List.Pairwise dateLe bs

instance (db : List Batch) (name : String) (bs : List Batch) :
    Decidable (queryOK db name bs) := by
  unfold queryOK
  exact instDecidableAnd

/-- The write list produced by the deduction loop of `update_stock`: walking
the queried batches in order while `remaining > 0`, each step issues
`UPDATE products SET quantity = quantity - deduct WHERE id = ?` with
`deduct = min(remaining, batch.quantity)`. -/
def deductions (remaining : Int) : List Batch → List (Nat × Int)
  | [] => []
  | b :: rest =>
    if remaining ≤ 0 then []
    else (b.id, min remaining b.qty) :: deductions (remaining - min remaining b.qty) rest

/-- One `UPDATE products SET quantity = quantity - d WHERE id = i`. -/
def applyWrite (db : List Batch) (w : Nat × Int) : List Batch :=
  db.map (fun b => if b.id = w.1 then { b with qty := b.qty - w.2 } else b)

/-- Applying a write list in order. -/
def applyWrites (db : List Batch) (ws : List (Nat × Int)) : List Batch :=
  ws.foldl applyWrite db

/-- Total amount a write list subtracts from rows with id `i`. -/
def writeSum (ws : List (Nat × Int)) (i : Nat) : Int :=
  ((ws.filter (fun w => decide (w.1 = i))).map (fun w => w.2)).sum

/-- The insufficient-stock failure raised by `update_stock`
(`"Insufficient stock. Available: {total_available}, Requested: {quantity}"`). -/
structure StockError where
  available : Int
  requested : Int
deriving DecidableEq

/-- `DatabaseHandler.update_stock`, parameterized by a query result `bs`
satisfying `queryOK`: check `total_available < quantity` first and fail with
no writes (the transaction rolls back, leaving the table unchanged);
otherwise apply the FIFO deduction writes and commit. -/
def update_stock (db : List Batch) (quantity : Int) (bs : List Batch) :
    Option StockError × List Batch :=
  let avail := totalAvailable bs
  if avail < quantity then (some ⟨avail, quantity⟩, db)
  else (none, applyWrites db (deductions quantity bs))

/-- Sum of `quantity` over all rows of one product (any sign). -/
def productSum (db : List Batch) (name : String) : Int :=
  ((db.filter (fun b => decide (b.pname = name))).map (fun b => b.qty)).sum

/-- Sum of `quantity` over the rows with id `i` (with unique ids, the
remaining quantity of that batch). -/
def batchQty (db : List Batch) (i : Nat) : Int :=
  ((db.filter (fun b => decide (b.id = i))).map (fun b => b.qty)).sum

/-- Sum of the remaining quantities of the first `k` queried batches. -/
def prefixQty (bs : List Batch) (k : Nat) : Int :=
  totalAvailable (bs.take k)

/-- Available stock of a product as the read-only pre-flight checks compute
it: the sum over the positive-quantity rows of that product. -/
def availableStock (db : List Batch) (name : String) : Int :=
  totalAvailable (stockQuery db name)

/-- `DatabaseHandler.add_product`: a plain `INSERT` setting both
`original_quantity` and `quantity` to the given quantity, with the product
name normalized by `format_name`.  The source performs no validation of the
quantity or the price. -/
def add_product (db : List Batch) (nextId : Nat) (pname : String)
    (quantity : Int) (price : ℚ) (pdate : Nat) : List Batch :=
  db ++ [⟨nextId, format_name pname, pdate, quantity, quantity, price⟩]

/-- `DatabaseHandler.get_invoice_number` for a fixed current year, over the
stored `last_invoice_number` of that year (`none`: no `settings` row yet, in
which case a row with value 0 is inserted first).  `isApril1` tells whether
the current date is April 1st; in that case the candidate is forced to 1.
Returns the issued number and the persisted counter. -/
def get_invoice_number (isApril1 : Bool) (st : Option Int) : Int × Option Int :=
  let last := st.getD 0
  let candidate := last + 1
  let candidate := if isApril1 then 1 else candidate
  (candidate, some candidate)

/-- The numbers returned by `n` sequential serialized calls of
`get_invoice_number`, starting from stored state `st`. -/
def seqCalls (isApril1 : Bool) : Nat → Option Int → List Int
  | 0, _ => []
  | n + 1, st =>
    let r := get_invoice_number isApril1 st
    r.1 :: seqCalls isApril1 n r.2

/-- `cgst_amount` as computed in `add_billing_item`. -/
def cgst_amount (quantity price cgst : ℚ) : ℚ :=
  (price * quantity) * (cgst / 100)

/-- `sgst_amount` as computed in `add_billing_item`. -/
def sgst_amount (quantity price sgst : ℚ) : ℚ :=
  (price * quantity) * (sgst / 100)

/-- `item_total` as computed in `add_billing_item`:
`(price * quantity) + cgst_amount + sgst_amount`.  The CESS rate is not read
and not applied anywhere in the billing path. -/
def item_total (quantity price cgst sgst : ℚ) : ℚ :=
  (price * quantity) + cgst_amount quantity price cgst + sgst_amount quantity price sgst

/-- One cart line (`temp_products` entry): product, integer quantity, unit
price and the CGST/SGST percentages captured at cart-build time. -/
structure CartItem where
  pname : String
  quantity : Int
  price : ℚ
  cgst : ℚ
  sgst : ℚ
deriving DecidableEq

/-- The bill total as `generate_bill` computes it:
`item_value * (1 + (cgst + sgst) / 100)` summed over the cart. -/
def bill_total (cart : List CartItem) : ℚ :=
  (cart.map (fun it =>
    ((it.quantity : ℚ) * it.price) * (1 + (it.cgst + it.sgst) / 100))).sum

/-- Per-line tax breakdown.  Modelled from the spec: the Tax Calculator
component (`computeLine`) is not a separate function in the source; this
definition follows the spec text `base = quantity × unitPrice`,
`cgstAmount = base × cgstPct / 100`, likewise SGST and CESS, and
`lineTotal = base + cgstAmount + sgstAmount + cessAmount`, for comparison
with the arithmetic the source actually performs. -/
structure LineBreakdown where
  base : ℚ
  cgstAmt : ℚ
  sgstAmt : ℚ
  cessAmt : ℚ
  total : ℚ
deriving DecidableEq

/-- Modelled from the spec: `computeLine` of the Tax Calculator (§4.3);
the source has no such standalone function. -/
def computeLine (quantity unitPrice cgstPct sgstPct cessPct : ℚ) : LineBreakdown :=
  let base := quantity * unitPrice
  { base := base
    cgstAmt := base * cgstPct / 100
    sgstAmt := base * sgstPct / 100
    cessAmt := base * cessPct / 100
    total := base + base * cgstPct / 100 + base * sgstPct / 100 + base * cessPct / 100 }

/-- One row of the `billing` table (a bill header). -/
structure Bill where
  number : Int
  customer : String
  total : ℚ
deriving DecidableEq

/-- One row of the `bill_items` table. -/
structure BillItem where
  billNumber : Int
  pname : String
  quantity : Int
  price : ℚ
deriving DecidableEq

/-- The persistent state touched by bill generation: the `products`,
`billing` and `bill_items` tables and the current-year invoice counter. -/
structure AppState where
  products : List Batch
  bills : List Bill
  billItems : List BillItem
  settings : Option Int
deriving DecidableEq

/-- `DatabaseHandler.create_bill`: insert and commit a bill header row. -/
def create_bill (st : AppState) (billNumber : Int) (customer : String)
    (total : ℚ) : AppState :=
  { st with bills := st.bills ++ [⟨billNumber, customer, total⟩] }

/-- `DatabaseHandler.add_bill_item`: insert and commit one bill line row. -/
def add_bill_item (st : AppState) (billNumber : Int) (pname : String)
    (quantity : Int) (price : ℚ) : AppState :=
  { st with billItems := st.billItems ++ [⟨billNumber, pname, quantity, price⟩] }

/-- Failures surfaced by `generate_bill`. -/
inductive BillError where
  | noItems : BillError
  | noCustomer : BillError
  | insufficientFor (pname : String) (available requested : Int) : BillError
  | stockError (e : StockError) : BillError
deriving DecidableEq

/-- A concrete date-sorted query result (used where the model must pick one
admissible answer of the batch query to stay executable): the selected rows
in a stable insertion sort by purchase date.  It satisfies `queryOK`. -/
def batchesForProduct (db : List Batch) (name : String) : List Batch :=
  List.insertionSort dateLe (stockQuery db name)

/-- The per-line loop of `StockManagementApp.generate_bill`: for each cart
line, re-read the available stock and fail if it is short (the committed
effects of earlier lines survive), otherwise insert the bill item (committed
immediately) and run `update_stock` (its own transaction).  A failure stops
the loop; nothing already committed is undone. -/
def processLines (st : AppState) (inv : Int) : List CartItem → Option BillError × AppState
  | [] => (none, st)
  | it :: rest =>
    let stock := availableStock st.products it.pname
    if stock < it.quantity then
      (some (.insufficientFor it.pname stock it.quantity), st)
    else
      let st1 := add_bill_item st inv it.pname it.quantity it.price
      match update_stock st1.products it.quantity
          (batchesForProduct st1.products it.pname) with
      | (some e, _) => (some (.stockError e), st1)
      | (none, products2) => processLines { st1 with products := products2 } inv rest

/-- `StockManagementApp.generate_bill`: validate the cart and customer, issue
the invoice number (committed), compute the total, insert the bill header
(committed), then process the lines.  Each step commits as it goes; a later
failure does not undo earlier commits. -/
def generate_bill (isApril1 : Bool) (st : AppState) (customer : String)
    (cart : List CartItem) : Option BillError × AppState :=
  if cart.isEmpty then (some .noItems, st)
  else if customer = "" then (some .noCustomer, st)
  else
    let r := get_invoice_number isApril1 st.settings
    let st1 := { st with settings := r.2 }
    let st2 := create_bill st1 r.1 customer (bill_total cart)
    processLines st2 r.1 cart

/-- The batch invariant of the spec: `0 ≤ remaining_quantity ≤ original_quantity`. -/
def batchInv (db : List Batch) : Prop :=
  ∀ b ∈ db, 0 ≤ b.qty ∧ b.qty ≤ b.original

instance (db : List Batch) : Decidable (batchInv db) := by
  unfold batchInv
  exact List.decidableBAll _ db

/-- Date order refined by ascending batch id on ties — the deterministic
total order the spec postulates for the batch query. -/
def dateIdLe (a b : Batch) : Prop :=
  a.pdate < b.pdate ∨ (a.pdate = b.pdate ∧ a.id ≤ b.id)

instance : DecidableRel dateIdLe := fun a b => by
  unfold dateIdLe
  infer_instance

/-- Concrete FIFO scenario from the spec: product "Widget", batch A
(date 1, qty 5) and batch B (date 2, qty 5). -/
def widgetDb : List Batch :=
  [⟨1, "Widget", 1, 5, 5, 100⟩, ⟨2, "Widget", 2, 5, 5, 110⟩]

/-- Two batches of one product sharing a purchase date. -/
def tieDb : List Batch :=
  [⟨1, "P", 5, 3, 3, 10⟩, ⟨2, "P", 5, 4, 4, 20⟩]

/-- The same two rows listed newest-id-first: also a legal answer of the
source's batch query, which sorts by date only. -/
def tieSwapped : List Batch :=
  [⟨2, "P", 5, 4, 4, 20⟩, ⟨1, "P", 5, 3, 3, 10⟩]

/-- One product with a single batch of 5 units. -/
def oneBatchState : AppState :=
  { products := [⟨1, "P", 0, 5, 5, 10⟩], bills := [], billItems := [], settings := none }

/-- A cart whose first line (3 units) is satisfiable but whose second line
(4 units) exceeds what remains after the first is allocated. -/
def twoLineCart : List CartItem :=
  [⟨"P", 3, 10, 0, 0⟩, ⟨"P", 4, 10, 0, 0⟩]

/-! ## Helper lemmas about write lists -/

lemma writeSum_nil (i : Nat) : writeSum [] i = 0 := rfl

lemma writeSum_cons (w : Nat × Int) (ws : List (Nat × Int)) (i : Nat) :
    writeSum (w :: ws) i = (if w.1 = i then w.2 else 0) + writeSum ws i := by
  by_cases h : w.1 = i <;> simp [writeSum, List.filter_cons, h]

lemma writeSum_eq_zero {ws : List (Nat × Int)} {i : Nat}
    (h : ∀ w ∈ ws, w.1 ≠ i) : writeSum ws i = 0 := by
  induction ws with
  | nil => rfl
  | cons w ws ih =>
    rw [writeSum_cons, if_neg (h w (by simp)), ih (fun w hw => h w (by simp [hw]))]
    ring

/-- Applying a write list row-by-row equals one pass that subtracts, from each
row, the total of the writes aimed at its id. -/
lemma applyWrites_eq (ws : List (Nat × Int)) :
    ∀ db : List Batch,
      applyWrites db ws = db.map (fun b => { b with qty := b.qty - writeSum ws b.id }) := by
  induction ws with
  | nil =>
    intro db
    have hfun : (fun b : Batch => { b with qty := b.qty - writeSum [] b.id }) = id := by
      funext b
      cases b
      simp [writeSum_nil]
    rw [hfun, List.map_id]
    rfl
  | cons w ws ih =>
    intro db
    have step : applyWrites db (w :: ws) = applyWrites (applyWrite db w) ws := rfl
    rw [step, ih, applyWrite, List.map_map]
    have hfun : ((fun b : Batch => { b with qty := b.qty - writeSum ws b.id }) ∘
        (fun b : Batch => if b.id = w.1 then { b with qty := b.qty - w.2 } else b)) =
        fun b : Batch => { b with qty := b.qty - writeSum (w :: ws) b.id } := by
      funext b
      obtain ⟨i, pn, pd, og, q, pr⟩ := b
      by_cases h : i = w.1
      · simp [Function.comp_apply, writeSum_cons, h]
        omega
      · have h2 : ¬ w.1 = i := Ne.symm h
        simp [Function.comp_apply, writeSum_cons, h, h2]
    rw [hfun]

lemma sum_map_add (l : List Batch) (f g : Batch → Int) :
    (l.map (fun b => f b + g b)).sum = (l.map f).sum + (l.map g).sum := by
  induction l with
  | nil => simp
  | cons b l ih => simp [ih]; ring

lemma sum_map_sub (l : List Batch) (f g : Batch → Int) :
    (l.map (fun b => f b - g b)).sum = (l.map f).sum - (l.map g).sum := by
  induction l with
  | nil => simp
  | cons b l ih => simp [ih]; ring

lemma sum_ite_of_not_mem {l : List Batch} {i : Nat} (c : Int)
    (h : i ∉ l.map (fun b => b.id)) :
    (l.map (fun b => if i = b.id then c else 0)).sum = 0 := by
  induction l with
  | nil => rfl
  | cons b l ih =>
    simp only [List.map_cons, List.mem_cons] at h ⊢
    rw [List.sum_cons, if_neg (fun hh => h (Or.inl hh)), ih (fun hh => h (Or.inr hh))]
    ring

lemma sum_ite_of_nodup_mem {l : List Batch} {i : Nat} (c : Int)
    (hnd : (l.map (fun b => b.id)).Nodup) (hm : i ∈ l.map (fun b => b.id)) :
    (l.map (fun b => if i = b.id then c else 0)).sum = c := by
  induction l with
  | nil => simp at hm
  | cons b l ih =>
    simp only [List.map_cons, List.nodup_cons] at hnd
    simp only [List.map_cons, List.mem_cons] at hm
    rcases hm with hm | hm
    · rw [List.map_cons, List.sum_cons, if_pos hm, sum_ite_of_not_mem c (hm ▸ hnd.1)]
      ring
    · have hne : i ≠ b.id := fun hh => hnd.1 (hh ▸ hm)
      rw [List.map_cons, List.sum_cons, if_neg hne, ih hnd.2 hm]
      ring

/-- Summing, over rows with pairwise-distinct ids, the write totals aimed at
each row gives the grand total of the write list, provided every write hits
one of the rows. -/
lemma sum_writeSum {l : List Batch} {ws : List (Nat × Int)}
    (hnd : (l.map (fun b => b.id)).Nodup)
    (hws : ∀ w ∈ ws, w.1 ∈ l.map (fun b => b.id)) :
    (l.map (fun b => writeSum ws b.id)).sum = (ws.map (fun w => w.2)).sum := by
  induction ws with
  | nil => simp [writeSum_nil]
  | cons w ws ih =>
    have h0 : (fun b : Batch => writeSum (w :: ws) b.id) =
        fun b : Batch => (if w.1 = b.id then w.2 else 0) + writeSum ws b.id := by
      funext b
      rw [writeSum_cons]
    rw [h0, sum_map_add l (fun b => if w.1 = b.id then w.2 else 0)
        (fun b => writeSum ws b.id),
      sum_ite_of_nodup_mem w.2 hnd (hws w (by simp)),
      ih (fun v hv => hws v (by simp [hv]))]
    simp

/-! ## Helper lemmas about the deduction loop -/

lemma deductions_nonpos {q : Int} (h : q ≤ 0) (bs : List Batch) :
    deductions q bs = [] := by
  cases bs with
  | nil => rfl
  | cons b rest => simp [deductions, if_pos h]

lemma totalAvailable_nonneg {bs : List Batch} (h : ∀ b ∈ bs, 0 < b.qty) :
    0 ≤ totalAvailable bs := by
  apply List.sum_nonneg
  intro x hx
  obtain ⟨b, hb, rfl⟩ := List.mem_map.mp hx
  exact (h b hb).le

lemma deductions_ids : ∀ (bs : List Batch) (q : Int) (w : Nat × Int),
    w ∈ deductions q bs → w.1 ∈ bs.map (fun b => b.id) := by
  intro bs
  induction bs with
  | nil =>
    intro q w hw
    simp [deductions] at hw
  | cons b rest ih =>
    intro q w hw
    by_cases h : q ≤ 0
    · rw [deductions_nonpos h] at hw
      simp at hw
    · simp only [deductions, if_neg h, List.mem_cons] at hw
      rcases hw with hw | hw
      · rw [hw]
        simp
      · simp only [List.map_cons, List.mem_cons]
        exact Or.inr (ih _ w hw)

lemma writeSum_deductions_not_mem {bs : List Batch} {q : Int} {i : Nat}
    (h : i ∉ bs.map (fun b => b.id)) : writeSum (deductions q bs) i = 0 :=
  writeSum_eq_zero (fun w hw he => h (he ▸ deductions_ids bs q w hw))

lemma deductions_sum : ∀ (bs : List Batch) (q : Int), 0 ≤ q →
    (∀ b ∈ bs, 0 < b.qty) →
    ((deductions q bs).map (fun w => w.2)).sum = min q (totalAvailable bs) := by
  intro bs
  induction bs with
  | nil =>
    intro q hq _
    simp [deductions, totalAvailable]
    omega
  | cons b rest ih =>
    intro q hq hpos
    have hb : 0 < b.qty := hpos b (by simp)
    have hrest : 0 ≤ totalAvailable rest :=
      totalAvailable_nonneg (fun x hx => hpos x (by simp [hx]))
    have htot : totalAvailable (b :: rest) = b.qty + totalAvailable rest := by
      simp [totalAvailable]
    by_cases h : q ≤ 0
    · rw [deductions_nonpos h]
      simp only [List.map_nil, List.sum_nil, htot]
      omega
    · simp only [deductions, if_neg h, List.map_cons, List.sum_cons, htot]
      rw [ih (q - min q b.qty) (by omega) (fun x hx => hpos x (by simp [hx]))]
      omega

lemma prefixQty_nonneg {bs : List Batch} {k : Nat}
    (hpos : ∀ b ∈ bs, 0 < b.qty) : 0 ≤ prefixQty bs k :=
  totalAvailable_nonneg (fun x hx => hpos x (List.take_subset k bs hx))

/-- The deduction the loop applies to the batch at position `k` is exactly
`min(still-needed, batch remaining)`, where still-needed is the requested
quantity minus what the earlier batches supplied, floored at zero. -/
lemma writeSum_deductions_get :
    ∀ (bs : List Batch) (q : Int) (k : Nat) (hk : k < bs.length), 0 ≤ q →
      (∀ b ∈ bs, 0 < b.qty) → (bs.map (fun b => b.id)).Nodup →
      writeSum (deductions q bs) (bs.get ⟨k, hk⟩).id =
        min (max (q - prefixQty bs k) 0) (bs.get ⟨k, hk⟩).qty := by
  intro bs
  induction bs with
  | nil =>
    intro q k hk
    exact absurd hk (by simp)
  | cons b rest ih =>
    intro q k hk hq hpos hnd
    have hb : 0 < b.qty := hpos b (by simp)
    have hbid : b.id ∉ rest.map (fun x => x.id) := by
      simp only [List.map_cons, List.nodup_cons] at hnd
      exact hnd.1
    by_cases h : q ≤ 0
    · rw [deductions_nonpos h, writeSum_nil]
      have hqty : 0 < ((b :: rest).get ⟨k, hk⟩).qty :=
        hpos _ (List.get_mem _ _ _)
      have hpre : 0 ≤ prefixQty (b :: rest) k := prefixQty_nonneg hpos
      omega
    · cases k with
      | zero =>
        simp only [deductions, if_neg h, writeSum_cons, List.get]
        rw [if_pos trivial, writeSum_deductions_not_mem hbid]
        have hpre : prefixQty (b :: rest) 0 = 0 := rfl
        omega
      | succ k =>
        have hk2 : k < rest.length := by simpa using hk
        have hget : ((b :: rest).get ⟨k + 1, hk⟩) = rest.get ⟨k, hk2⟩ := rfl
        have hne : ¬ b.id = (rest.get ⟨k, hk2⟩).id := by
          intro he
          exact hbid (he ▸ List.mem_map_of_mem _ (List.get_mem _ _ _))
        simp only [deductions, if_neg h, writeSum_cons, hget]
        rw [if_neg hne,
          ih (q - min q b.qty) k hk2 (by omega)
            (fun x hx => hpos x (by simp [hx]))
            (by simp only [List.map_cons, List.nodup_cons] at hnd; exact hnd.2)]
        have hqty : 0 < (rest.get ⟨k, hk2⟩).qty :=
          hpos _ (by simp [List.get_mem])
        have hpre : prefixQty (b :: rest) (k + 1) = b.qty + prefixQty rest k := by
          simp [prefixQty, totalAvailable, List.take]
        have hpre2 : 0 ≤ prefixQty rest k :=
          prefixQty_nonneg (fun x hx => hpos x (by simp [hx]))
        omega

/-- FIFO: if a later-dated batch received any deduction, every strictly
earlier-dated batch was deducted down to zero (its write total equals its
whole remaining quantity). -/
lemma deductions_fifo :
    ∀ (bs : List Batch) (q : Int), (∀ b ∈ bs, 0 < b.qty) →
      List.Pairwise dateLe bs → (bs.map (fun b => b.id)).Nodup →
      ∀ A ∈ bs, ∀ B ∈ bs, A.pdate < B.pdate →
        0 < writeSum (deductions q bs) B.id →
        writeSum (deductions q bs) A.id = A.qty := by
  intro bs
  induction bs with
  | nil =>
    intro q _ _ _ A hA
    simp at hA
  | cons b rest ih =>
    intro q hpos hsort hnd A hA B hB hAB hBpos
    have hb : 0 < b.qty := hpos b (by simp)
    have hbid : b.id ∉ rest.map (fun x => x.id) := by
      simp only [List.map_cons, List.nodup_cons] at hnd
      exact hnd.1
    by_cases h : q ≤ 0
    · rw [deductions_nonpos h, writeSum_nil] at hBpos
      omega
    · rcases List.mem_cons.mp hB with hBb | hBrest
      · exfalso
        rcases List.mem_cons.mp hA with hAb | hArest
        · rw [hAb, hBb] at hAB
          omega
        · have : dateLe b A := (List.pairwise_cons.mp hsort).1 A hArest
          rw [hBb] at hAB
          exact absurd hAB (by simp only [dateLe] at this; omega)
      · have hBne : ¬ b.id = B.id := by
          intro he
          exact hbid (he ▸ List.mem_map_of_mem _ hBrest)
        have hBpos2 : 0 < writeSum (deductions (q - min q b.qty) rest) B.id := by
          rw [deductions] at hBpos
          rw [if_neg h, writeSum_cons, if_neg hBne] at hBpos
          simpa using hBpos
        have hqd : 0 < q - min q b.qty := by
          by_contra hc
          rw [deductions_nonpos (by omega), writeSum_nil] at hBpos2
          omega
        rcases List.mem_cons.mp hA with hAb | hArest
        · rw [hAb]
          simp only [deductions, if_neg h, writeSum_cons]
          rw [if_pos trivial, writeSum_deductions_not_mem hbid]
          omega
        · have hAne : ¬ b.id = A.id := by
            intro he
            exact hbid (he ▸ List.mem_map_of_mem _ hArest)
          simp only [deductions, if_neg h, writeSum_cons]
          rw [if_neg hAne]
          rw [ih (q - min q b.qty) (fun x hx => hpos x (by simp [hx]))
            (List.pairwise_cons.mp hsort).2
            (by simp only [List.map_cons, List.nodup_cons] at hnd; exact hnd.2)
            A hArest B hBrest hAB hBpos2]
          omega

/-! ## Helper lemmas about rows and queries -/

lemma mem_stockQuery {db : List Batch} {name : String} {b : Batch} :
    b ∈ stockQuery db name ↔ b ∈ db ∧ b.pname = name ∧ 0 < b.qty := by
  simp [stockQuery, List.mem_filter, and_assoc]

lemma queryOK_mem {db : List Batch} {name : String} {bs : List Batch}
    (h : queryOK db name bs) {b : Batch} (hb : b ∈ bs) :
    b ∈ db ∧ b.pname = name ∧ 0 < b.qty :=
  mem_stockQuery.mp (h.1.mem_iff.mp hb)

lemma queryOK_nodup_ids {db : List Batch} {name : String} {bs : List Batch}
    (h : queryOK db name bs) (hnd : (db.map (fun b => b.id)).Nodup) :
    (bs.map (fun b => b.id)).Nodup := by
  have hsub : ((stockQuery db name).map (fun b => b.id)).Nodup :=
    ((List.filter_sublist db).map (fun b => b.id)).nodup hnd
  exact ((h.1.map (fun b => b.id)).nodup_iff).mpr hsub

lemma filter_id_single {db : List Batch} {r : Batch}
    (hnd : (db.map (fun b => b.id)).Nodup) (hr : r ∈ db) :
    db.filter (fun b => decide (b.id = r.id)) = [r] := by
  induction db with
  | nil => simp at hr
  | cons b rest ih =>
    simp only [List.map_cons, List.nodup_cons] at hnd
    rcases List.mem_cons.mp hr with hr | hr
    · subst hr
      rw [List.filter_cons, if_pos (by simp)]
      have hrest : rest.filter (fun b => decide (b.id = r.id)) = [] := by
        rw [List.filter_eq_nil_iff]
        intro x hx hxe
        exact hnd.1 ((of_decide_eq_true hxe) ▸ List.mem_map_of_mem _ hx)
      rw [hrest]
    · have hne : ¬ b.id = r.id := fun he => hnd.1 (he ▸ List.mem_map_of_mem _ hr)
      rw [List.filter_cons, if_neg (by simpa using hne)]
      exact ih hnd.2 hr

lemma batchQty_row {db : List Batch} {r : Batch}
    (hnd : (db.map (fun b => b.id)).Nodup) (hr : r ∈ db) :
    batchQty db r.id = r.qty := by
  rw [batchQty, filter_id_single hnd hr]
  simp

lemma batchQty_applyWrites {db : List Batch} {r : Batch} (ws : List (Nat × Int))
    (hnd : (db.map (fun b => b.id)).Nodup) (hr : r ∈ db) :
    batchQty (db.map (fun b => { b with qty := b.qty - writeSum ws b.id })) r.id =
      r.qty - writeSum ws r.id := by
  rw [batchQty, List.filter_map]
  have hp : ((fun b : Batch => decide (b.id = r.id)) ∘
      (fun b : Batch => { b with qty := b.qty - writeSum ws b.id })) =
      fun b : Batch => decide (b.id = r.id) := rfl
  rw [hp, filter_id_single hnd hr]
  simp

lemma productSum_applyWrites {db : List Batch} {name : String}
    (ws : List (Nat × Int)) (hnd : (db.map (fun b => b.id)).Nodup)
    (hws : ∀ w ∈ ws,
      w.1 ∈ (db.filter (fun b => decide (b.pname = name))).map (fun b => b.id)) :
    productSum (db.map (fun b => { b with qty := b.qty - writeSum ws b.id })) name =
      productSum db name - (ws.map (fun w => w.2)).sum := by
  rw [productSum, List.filter_map]
  have hp : ((fun b : Batch => decide (b.pname = name)) ∘
      (fun b : Batch => { b with qty := b.qty - writeSum ws b.id })) =
      fun b : Batch => decide (b.pname = name) := rfl
  rw [hp, List.map_map]
  have hmap : ((fun b : Batch => b.qty) ∘
      (fun b : Batch => { b with qty := b.qty - writeSum ws b.id })) =
      fun b : Batch => b.qty - writeSum ws b.id := rfl
  rw [hmap, sum_map_sub, sum_writeSum ?hnd hws]
  · rfl
  case hnd =>
    exact (((List.filter_sublist db).map (fun b => b.id)).nodup hnd)

/-! ## Claim theorems: the allocator -/

/-- C1: for every product whose batches can cover a requested quantity
(`Î£ remaining_quantity â¥ requested`, the request being a quantity, hence
nonnegative), `update_stock` succeeds; afterwards the product's total
remaining quantity has decreased by exactly the requested amount; batches
are consumed oldest-purchase-date-first (if a strictly newer batch was
decremented at all, every strictly older queried batch ended at remaining
quantity 0); and each queried batch's deduction equals
`min(still-needed, batch remaining)`. -/
theorem update_stock_allocates (db : List Batch) (name : String) (q : Int)
    (bs : List Batch) (hquery : queryOK db name bs)
    (hnd : (db.map (fun b => b.id)).Nodup)
    (hq0 : 0 ≤ q) (hle : q ≤ totalAvailable bs) :
    ∃ db2, update_stock db q bs = (none, db2) ∧
      productSum db2 name = productSum db name - q ∧
      (∀ A ∈ bs, ∀ B ∈ bs, A.pdate < B.pdate →
        batchQty db2 B.id < batchQty db B.id → batchQty db2 A.id = 0) ∧
      (∀ k (hk : k < bs.length),
        batchQty db (bs.get ⟨k, hk⟩).id - batchQty db2 (bs.get ⟨k, hk⟩).id =
          min (max (q - prefixQty bs k) 0) (bs.get ⟨k, hk⟩).qty) := by
  have hpos : ∀ b ∈ bs, 0 < b.qty := fun b hb => (queryOK_mem hquery hb).2.2
  have hmem : ∀ b ∈ bs, b ∈ db := fun b hb => (queryOK_mem hquery hb).1
  have hbsnd : (bs.map (fun b => b.id)).Nodup := queryOK_nodup_ids hquery hnd
  have hws : ∀ w ∈ deductions q bs,
      w.1 ∈ (db.filter (fun b => decide (b.pname = name))).map (fun b => b.id) := by
    intro w hw
    obtain ⟨b, hb, hbw⟩ := List.mem_map.mp (deductions_ids bs q w hw)
    refine List.mem_map.mpr ⟨b, ?_, hbw⟩
    refine List.mem_filter.mpr ⟨hmem b hb, ?_⟩
    simp [(queryOK_mem hquery hb).2.1]
  have hrun : update_stock db q bs =
      (none, db.map (fun b => { b with qty := b.qty - writeSum (deductions q bs) b.id })) := by
    rw [update_stock, if_neg (by omega), applyWrites_eq]
  refine ⟨_, hrun, ?_, ?_, ?_⟩
  · rw [productSum_applyWrites (deductions q bs) hnd hws]
    have hsum := deductions_sum bs q hq0 hpos
    omega
  · intro A hA B hB hAB hBdec
    rw [batchQty_applyWrites (deductions q bs) hnd (hmem A hA),
      batchQty_applyWrites (deductions q bs) hnd (hmem B hB),
      batchQty_row hnd (hmem B hB)] at *
    have hBpos : 0 < writeSum (deductions q bs) B.id := by omega
    have hfifo := deductions_fifo bs q hpos hquery.2 hbsnd A hA B hB hAB hBpos
    omega
  · intro k hk
    have hget : bs.get ⟨k, hk⟩ ∈ bs := List.get_mem bs k hk
    rw [batchQty_applyWrites (deductions q bs) hnd (hmem _ hget),
      batchQty_row hnd (hmem _ hget),
      writeSum_deductions_get bs q k hk hq0 hpos hbsnd]
    omega

theorem update_stock_allocates_witness :
    queryOK widgetDb "Widget" widgetDb ∧
      (widgetDb.map (fun b => b.id)).Nodup ∧ (0 : Int) ≤ 7 ∧
      (7 : Int) ≤ totalAvailable widgetDb ∧
      (∃ db2, update_stock widgetDb 7 widgetDb = (none, db2) ∧
        productSum db2 "Widget" = productSum widgetDb "Widget" - 7 ∧
        (∀ A ∈ widgetDb, ∀ B ∈ widgetDb, A.pdate < B.pdate →
          batchQty db2 B.id < batchQty widgetDb B.id → batchQty db2 A.id = 0) ∧
        (∀ k (hk : k < widgetDb.length),
          batchQty widgetDb (widgetDb.get ⟨k, hk⟩).id -
              batchQty db2 (widgetDb.get ⟨k, hk⟩).id =
            min (max (7 - prefixQty widgetDb k) 0) (widgetDb.get ⟨k, hk⟩).qty)) :=
  ⟨by decide, by decide, by decide, by decide,
    update_stock_allocates widgetDb "Widget" 7 widgetDb (by decide) (by decide)
      (by decide) (by decide)⟩

/-- C2: whenever the requested quantity strictly exceeds the product's total
remaining quantity, `update_stock` fails with an insufficient-stock error
carrying both the available and the requested quantity, and the table is
returned unchanged (the transaction performed no writes); the reported
available quantity is the product's available stock. -/
theorem update_stock_insufficient (db : List Batch) (name : String) (q : Int)
    (bs : List Batch) (hquery : queryOK db name bs)
    (hlt : totalAvailable bs < q) :
    update_stock db q bs = (some ⟨totalAvailable bs, q⟩, db) ∧
      totalAvailable bs = availableStock db name := by
  constructor
  · simp [update_stock, if_pos hlt]
  · exact (hquery.1.map (fun b => b.qty)).sum_eq

theorem update_stock_insufficient_witness :
    queryOK widgetDb "Widget" widgetDb ∧ totalAvailable widgetDb < 11 ∧
      (update_stock widgetDb 11 widgetDb =
          (some ⟨totalAvailable widgetDb, 11⟩, widgetDb) ∧
        totalAvailable widgetDb = availableStock widgetDb "Widget") :=
  ⟨by decide, by decide,
    update_stock_insufficient widgetDb "Widget" 11 widgetDb (by decide) (by decide)⟩

/-- C10: a request for a nonpositive quantity always passes the availability
check (the available total, a sum of positive quantities, is never below a
nonpositive request) and performs no deduction (the loop breaks immediately
because `remaining ≤ 0`), so `update_stock` succeeds and returns the table
unchanged. -/
theorem update_stock_nonpositive (db : List Batch) (name : String) (q : Int)
    (bs : List Batch) (hquery : queryOK db name bs) (hq : q ≤ 0) :
    update_stock db q bs = (none, db) := by
  have hpos : ∀ b ∈ bs, 0 < b.qty := fun b hb => (queryOK_mem hquery hb).2.2
  have h0 : 0 ≤ totalAvailable bs := totalAvailable_nonneg hpos
  rw [update_stock]
  rw [if_neg (by omega), deductions_nonpos hq]
  rfl

theorem update_stock_nonpositive_witness :
    queryOK widgetDb "Widget" widgetDb ∧ (-3 : Int) ≤ 0 ∧
      update_stock widgetDb (-3) widgetDb = (none, widgetDb) :=
  ⟨by decide, by decide,
    update_stock_nonpositive widgetDb "Widget" (-3) widgetDb (by decide) (by decide)⟩

/-! ## Claim theorems: the invoice sequencer -/

lemma seqCalls_some (N m : Nat) :
    seqCalls false N (some ((m : Int))) =
      (List.range' (m + 1) N).map (fun k => (k : Int)) := by
  induction N generalizing m with
  | zero => rfl
  | succ N ih =>
    have hstep : seqCalls false (N + 1) (some ((m : Int))) =
        ((m : Int) + 1) :: seqCalls false N (some ((m : Int) + 1)) := rfl
    have hcast : ((m : Int) + 1) = ((m + 1 : Nat) : Int) := by push_cast; ring
    rw [hstep, hcast, ih (m + 1)]
    rfl

/-- C5: in a year with no pre-existing counter row, N sequential serialized
calls of `get_invoice_number` on days other than April 1 return exactly
1, 2, ..., N in order (so with no duplicates and no gaps; in particular the
first call returns 1 and the second returns 2). -/
theorem invoice_numbers_sequential (N : Nat) :
    seqCalls false N none = (List.range' 1 N).map (fun k => (k : Int)) := by
  cases N with
  | zero => rfl
  | succ N =>
    have hstep : seqCalls false (N + 1) none =
        (1 : Int) :: seqCalls false N (some 1) := rfl
    have hcast : (some (1 : Int)) = some (((1 : Nat) : Int)) := by norm_num
    rw [hstep, hcast, seqCalls_some N 1]
    rfl

/-- C6: every call of `get_invoice_number` made on April 1 returns invoice
number 1 and persists `last_invoice_number = 1`, whatever the stored counter
was — the reset fires on every call made that day, not only the first. -/
theorem invoice_number_april1_reset (st : Option Int) :
    get_invoice_number true st = (1, some 1) := by
  cases st <;> rfl

/-! ## Claim theorems: tax computation -/

/-- C4 counterexample: the source's line total (`add_billing_item`) applies
only CGST and SGST; at the spec's own example (10 units at 100.0 with
9% + 9% + 2% CESS) it yields 1180, not the claimed 1200 that the
spec-modelled `computeLine` (base + cgst + sgst + cess) produces. -/
theorem item_total_ignores_cess :
    item_total 10 100 9 9 = 1180 ∧ (computeLine 10 100 9 9 2).total = 1200 ∧
      item_total 10 100 9 9 ≠ (computeLine 10 100 9 9 2).total := by
  refine ⟨?_, ?_, ?_⟩ <;>
    norm_num [item_total, cgst_amount, sgst_amount, computeLine]

/-- C4 amended: the computed line total equals
`base + base*cgst/100 + base*sgst/100` with `base = quantity*unitPrice`
(the CESS percentage is not applied); at (10, 100.0, 9, 9, 2) the base is
1000.00, CGST 90.00, SGST 90.00 and the total 1180.00; and the document
total computed by `generate_bill` is the sum of the lines' totals. -/
theorem bill_total_is_sum_of_line_totals :
    (∀ cart : List CartItem, bill_total cart =
        (cart.map (fun it =>
          item_total (it.quantity : ℚ) it.price it.cgst it.sgst)).sum) ∧
      (10 : ℚ) * 100 = 1000 ∧ cgst_amount 10 100 9 = 90 ∧
      sgst_amount 10 100 9 = 90 ∧ item_total 10 100 9 9 = 1180 := by
  refine ⟨?_, by norm_num, ?_, ?_, ?_⟩
  · intro cart
    have hfun : (fun it : CartItem =>
        ((it.quantity : ℚ) * it.price) * (1 + (it.cgst + it.sgst) / 100)) =
        fun it : CartItem =>
          item_total (it.quantity : ℚ) it.price it.cgst it.sgst := by
      funext it
      simp only [item_total, cgst_amount, sgst_amount]
      ring
    rw [bill_total, hfun]
  · norm_num [cgst_amount]
  · norm_num [sgst_amount]
  · norm_num [item_total, cgst_amount, sgst_amount]

/-! ## Claim theorems: batch creation -/

/-- C9 counterexample: `add_product` performs no validation; called with
quantity −5 and price −2 it raises nothing and inserts a row (with the
negative quantity stored as both original and remaining quantity), refuting
`fails with a ValidationError and no batch record is created`. -/
theorem add_product_accepts_negative :
    add_product [] 1 "P" (-5) (-2) 0 ≠ ([] : List Batch) ∧
      (add_product [] 1 "P" (-5) (-2) 0).length = 1 ∧
      ∃ b ∈ add_product [] 1 "P" (-5) (-2) 0, b.qty = -5 ∧ b.original = -5 := by
  decide

/-- C9 amended: `add_product` never fails and never validates: for every
input, including a negative quantity or price, it appends exactly one batch
row, leaves every existing row in place, and the new row has
`remaining_quantity = original_quantity =` the given quantity. -/
theorem add_product_creates_batch (db : List Batch) (nextId : Nat)
    (pname : String) (q : Int) (price : ℚ) (pdate : Nat) :
    (add_product db nextId pname q price pdate).length = db.length + 1 ∧
      (∀ b ∈ db, b ∈ add_product db nextId pname q price pdate) ∧
      ∃ nb, add_product db nextId pname q price pdate = db ++ [nb] ∧
        nb.qty = q ∧ nb.original = q ∧ nb.id = nextId := by
  refine ⟨by simp [add_product], fun b hb => by simp [add_product, hb],
    _, rfl, rfl, rfl, rfl⟩

/-! ## Claim theorems: the batch invariant -/

lemma deductions_snd_pos : ∀ (bs : List Batch) (q : Int),
    (∀ b ∈ bs, 0 < b.qty) → ∀ w ∈ deductions q bs, 0 < w.2 := by
  intro bs
  induction bs with
  | nil =>
    intro q _ w hw
    simp [deductions] at hw
  | cons b rest ih =>
    intro q hpos w hw
    by_cases h : q ≤ 0
    · rw [deductions_nonpos h] at hw
      simp at hw
    · simp only [deductions, if_neg h, List.mem_cons] at hw
      rcases hw with hw | hw
      · have hb : 0 < b.qty := hpos b (by simp)
        rw [hw]
        simp
        omega
      · exact ih _ (fun x hx => hpos x (by simp [hx])) w hw

lemma writeSum_deductions_nonneg {bs : List Batch} {q : Int} (i : Nat)
    (hpos : ∀ b ∈ bs, 0 < b.qty) : 0 ≤ writeSum (deductions q bs) i := by
  apply List.sum_nonneg
  intro x hx
  obtain ⟨w, hw, rfl⟩ := List.mem_map.mp hx
  exact (deductions_snd_pos bs q hpos w (List.mem_of_mem_filter hw)).le

lemma writeSum_deductions_le {bs : List Batch} {q : Int} {r : Batch}
    (hpos : ∀ b ∈ bs, 0 < b.qty) (hnd : (bs.map (fun b => b.id)).Nodup)
    (hr : r ∈ bs) : writeSum (deductions q bs) r.id ≤ r.qty := by
  by_cases hq : q ≤ 0
  · rw [deductions_nonpos hq, writeSum_nil]
    exact (hpos r hr).le
  · obtain ⟨⟨k, hk⟩, hget⟩ := List.mem_iff_get.mp hr
    have hmin := writeSum_deductions_get bs q k hk (by omega) hpos hnd
    rw [hget] at hmin
    have hq2 : 0 < r.qty := hpos r hr
    omega

lemma eq_of_mem_of_id : ∀ {db : List Batch},
    (db.map (fun b => b.id)).Nodup →
    ∀ {a c : Batch}, a ∈ db → c ∈ db → a.id = c.id → a = c := by
  intro db
  induction db with
  | nil =>
    intro _ a c ha
    simp at ha
  | cons d rest ih =>
    intro hnd a c ha hc hid
    simp only [List.map_cons, List.nodup_cons] at hnd
    rcases List.mem_cons.mp ha with ha | ha <;> rcases List.mem_cons.mp hc with hc | hc
    · rw [ha, hc]
    · exact absurd (by rw [← ha, hid]; exact List.mem_map_of_mem _ hc) hnd.1
    · exact absurd (by rw [← hc, ← hid]; exact List.mem_map_of_mem _ ha) hnd.1
    · exact ih hnd.2 ha hc hid

/-- C8 counterexample: `add_product` applied to an invariant-satisfying
(empty) table with quantity −5 produces a batch with remaining quantity −5,
so `0 ≤ remaining_quantity` does not hold after every batch creation. -/
theorem batch_invariant_violated_at_creation :
    batchInv ([] : List Batch) ∧ ¬ batchInv (add_product [] 1 "P" (-5) 10 0) := by
  decide

/-- C8 amended: `0 ≤ remaining ≤ original` is preserved by batch creation
for nonnegative input quantities (the unvalidated negative-quantity input is
the sole exception), and by every allocation call, which never increases any
remaining quantity, never drives one below 0, and modifies no row's id or
original quantity. -/
theorem batch_invariant_preserved :
    (∀ (db : List Batch) (nextId : Nat) (pname : String) (q : Int) (price : ℚ)
        (pdate : Nat), batchInv db → 0 ≤ q →
        batchInv (add_product db nextId pname q price pdate)) ∧
    (∀ (db : List Batch) (name : String) (q : Int) (bs : List Batch)
        (e : Option StockError) (db2 : List Batch), queryOK db name bs →
        (db.map (fun b => b.id)).Nodup → update_stock db q bs = (e, db2) →
        (batchInv db → batchInv db2) ∧ db2.length = db.length ∧
        (∀ k (hk : k < db.length) (hk2 : k < db2.length),
          (db2.get ⟨k, hk2⟩).id = (db.get ⟨k, hk⟩).id ∧
          (db2.get ⟨k, hk2⟩).original = (db.get ⟨k, hk⟩).original ∧
          (db2.get ⟨k, hk2⟩).qty ≤ (db.get ⟨k, hk⟩).qty)) := by
  constructor
  · intro db nextId pname q price pdate hinv hq b hb
    rw [add_product, List.mem_append] at hb
    rcases hb with hb | hb
    · exact hinv b hb
    · simp only [List.mem_singleton] at hb
      rw [hb]
      exact ⟨hq, le_refl _⟩
  · intro db name q bs e db2 hquery hnd hrun
    have hpos : ∀ b ∈ bs, 0 < b.qty := fun b hb => (queryOK_mem hquery hb).2.2
    have hbsnd : (bs.map (fun b => b.id)).Nodup := queryOK_nodup_ids hquery hnd
    by_cases hlt : totalAvailable bs < q
    · rw [update_stock] at hrun
      rw [if_pos hlt] at hrun
      have hdb : db = db2 := congrArg Prod.snd hrun
      subst hdb
      exact ⟨fun h => h, rfl, fun k hk hk2 => ⟨rfl, rfl, le_refl _⟩⟩
    · rw [update_stock] at hrun
      rw [if_neg hlt, applyWrites_eq] at hrun
      have hdb : db.map (fun b =>
          { b with qty := b.qty - writeSum (deductions q bs) b.id }) = db2 :=
        congrArg Prod.snd hrun
      subst hdb
      refine ⟨?_, by simp, ?_⟩
      · intro hinv b2 hb2
        obtain ⟨b, hb, rfl⟩ := List.mem_map.mp hb2
        have hws0 : 0 ≤ writeSum (deductions q bs) b.id :=
          writeSum_deductions_nonneg _ hpos
        have hfields := hinv b hb
        by_cases hbin : b.id ∈ bs.map (fun x => x.id)
        · obtain ⟨c, hc, hcid⟩ := List.mem_map.mp hbin
          have hceq : c = b :=
            eq_of_mem_of_id hnd (queryOK_mem hquery hc).1 hb hcid
          have hub : writeSum (deductions q bs) b.id ≤ b.qty :=
            writeSum_deductions_le hpos hbsnd (hceq ▸ hc)
          constructor <;> simp <;> omega
        · rw [writeSum_deductions_not_mem hbin]
          constructor <;> simp <;> omega
      · intro k hk hk2
        have hg : ((db.map (fun b =>
            { b with qty := b.qty - writeSum (deductions q bs) b.id })).get
              ⟨k, hk2⟩) =
            (fun b : Batch =>
              { b with qty := b.qty - writeSum (deductions q bs) b.id })
              (db.get ⟨k, hk⟩) := by
          simp [List.get_eq_getElem, List.getElem_map]
        rw [hg]
        have hws0 : 0 ≤ writeSum (deductions q bs) (db.get ⟨k, hk⟩).id :=
          writeSum_deductions_nonneg _ hpos
        refine ⟨rfl, rfl, ?_⟩
        show (db.get ⟨k, hk⟩).qty - writeSum (deductions q bs) (db.get ⟨k, hk⟩).id ≤
          (db.get ⟨k, hk⟩).qty
        omega

theorem batch_invariant_preserved_witness :
    batchInv widgetDb ∧ (0 : Int) ≤ 4 ∧
      batchInv (add_product widgetDb 3 "Gadget" 4 7 9) :=
  ⟨by decide, by decide,
    batch_invariant_preserved.1 widgetDb 3 "Gadget" 4 7 9 (by decide) (by decide)⟩

/-! ## Claim theorems: the batch query order -/

lemma sorted_perm_eq_of_nodup_dates :
    ∀ {r r2 : List Batch}, List.Perm r2 r → List.Pairwise dateLe r2 →
      List.Pairwise dateLe r → (r.map (fun b => b.pdate)).Nodup → r2 = r := by
  intro r
  induction r with
  | nil =>
    intro r2 hp _ _ _
    exact hp.eq_nil
  | cons a t ih =>
    intro r2 hp hs2 hs hnd
    cases r2 with
    | nil => exact absurd hp.symm.eq_nil (by simp)
    | cons b t2 =>
      simp only [List.map_cons, List.nodup_cons] at hnd
      have hab : b = a := by
        by_cases h : b = a
        · exact h
        · exfalso
          have hbmem : b ∈ a :: t := hp.subset (by simp)
          have hamem : a ∈ b :: t2 := hp.symm.subset (by simp)
          have hbt : b ∈ t := by
            rcases List.mem_cons.mp hbmem with hb | hb
            · exact absurd hb h
            · exact hb
          have hat2 : a ∈ t2 := by
            rcases List.mem_cons.mp hamem with ha | ha
            · exact absurd ha.symm h
            · exact ha
          have h1 : a.pdate ≤ b.pdate := (List.pairwise_cons.mp hs).1 b hbt
          have h2 : b.pdate ≤ a.pdate := (List.pairwise_cons.mp hs2).1 a hat2
          exact hnd.1 (by
            have : b.pdate = a.pdate := by omega
            exact this ▸ List.mem_map_of_mem _ hbt)
      subst hab
      have ht : t2 = t :=
        ih hp.cons_inv (List.pairwise_cons.mp hs2).2 (List.pairwise_cons.mp hs).2
          hnd.2
      rw [ht]

/-- C7 counterexample: for two batches of one product sharing a purchase
date, the source query (`WHERE product_name = ? AND quantity > 0 ORDER BY
purchase_date ASC`, no secondary key) admits both orders of the tie — in
particular the id-descending one — so the result is neither deterministic
nor guaranteed to break date ties by ascending batch id. -/
theorem batch_query_tie_not_deterministic :
    queryOK tieDb "P" tieSwapped ∧ queryOK tieDb "P" tieDb ∧
      tieSwapped ≠ tieDb ∧ ¬ List.Pairwise dateIdLe tieSwapped := by
  decide

/-- C7 amended: every admissible result of the allocator's batch query holds
exactly the product's batches with positive remaining quantity (same
multiset), in ascending purchase-date order; no tie-break on equal dates is
specified by the query, but whenever the purchase dates are pairwise
distinct the result is uniquely determined. -/
theorem batch_query_sorted_perm (db : List Batch) (name : String)
    (r : List Batch) (h : queryOK db name r) :
    (∀ b, r.count b = (stockQuery db name).count b) ∧
      (∀ b ∈ r, b ∈ db ∧ b.pname = name ∧ 0 < b.qty) ∧
      List.Pairwise dateLe r ∧
      (∀ r2, queryOK db name r2 → (r.map (fun b => b.pdate)).Nodup → r2 = r) := by
  refine ⟨h.1.count_eq, fun b hb => queryOK_mem h hb, h.2, ?_⟩
  intro r2 h2 hnd
  exact sorted_perm_eq_of_nodup_dates (h2.1.trans h.1.symm) h2.2 h.2 hnd

theorem batch_query_sorted_perm_witness :
    queryOK widgetDb "Widget" widgetDb ∧
      ((∀ b, widgetDb.count b = (stockQuery widgetDb "Widget").count b) ∧
        (∀ b ∈ widgetDb, b ∈ widgetDb ∧ b.pname = "Widget" ∧ 0 < b.qty) ∧
        List.Pairwise dateLe widgetDb ∧
        (∀ r2, queryOK widgetDb "Widget" r2 →
          (widgetDb.map (fun b => b.pdate)).Nodup → r2 = widgetDb)) :=
  ⟨by decide, batch_query_sorted_perm widgetDb "Widget" widgetDb (by decide)⟩

/-! ## Claim theorems: bill generation -/

/-- C3: `generate_bill` is not all-or-nothing.  At a one-product, two-line
cart whose second line becomes unsatisfiable after the first line is
allocated, the call fails — yet the bill header row persists and the
product's total remaining quantity has dropped from 5 to 2: the committed
invoice issuance, bill header insert, first bill item and first stock
deduction all survive the failure. -/
theorem generate_bill_not_atomic :
    (generate_bill false oneBatchState "Alice" twoLineCart).1 =
        some (.insufficientFor "P" 2 4) ∧
      productSum oneBatchState.products "P" = 5 ∧
      productSum (generate_bill false oneBatchState "Alice" twoLineCart).2.products
          "P" = 2 ∧
      ((generate_bill false oneBatchState "Alice" twoLineCart).2.bills.map
          (fun b => (b.number, b.customer))) = [(1, "Alice")] ∧
      ((generate_bill false oneBatchState "Alice" twoLineCart).2.billItems.map
          (fun bi => (bi.billNumber, bi.pname, bi.quantity))) = [(1, "P", 3)] := by
  decide

end StockApp
